import Mathlib

/-!
Shallow embedding of `src/parallel_inverse_aggregate.py`.

Conventions used throughout:
* NumPy float arrays are modelled with `ℚ` (the program performs only
  arithmetic, comparison, `floor` and `ceil` on them; the claims under
  scrutiny do not concern floating-point rounding).
* NumPy integer arrays are modelled with `ℤ` (point indices with `ℕ`), and
  2-D arrays row-wise as `List (List _)`.
* Python code that can raise (`ValueError` from `np.array_split`,
  `IndexError` from indexing an empty array, `NameError` from an undefined
  identifier) is modelled with `Except String`; the message mirrors the
  Python exception.
* `np.argsort` ties are modelled as a stable sort (`List.insertionSort`);
  the grouping-level facts proved below are independent of tie order.
-/

/-- Python exception raised by `np.array_split` when asked for zero sections
(reached by `extract_subproblems` on an empty bin with a finite bound). -/
def numberSectionsErr : String := "ValueError: number sections must be larger than 0."

/-- Python exception raised by `bin_content_tuple` (line 210 of the source)
when a subgroup is empty: `bin_content[0]` indexes an empty array. -/
def indexErr : String := "IndexError: index 0 is out of bounds for axis 0 with size 0"

/-- Python exception raised by `compute_mapped_distance_on_subgroup`
(line 246 of the source): its first statement unpacks the name
`subgroups_and_coords`, which is defined nowhere (the parameter is called
`subgroup_info`). -/
def nameErrSubgroups : String := "NameError: name subgroups_and_coords is not defined"

/-- Python exception raised by `mapped_distance_matrix` (line 327 of the
source): the arguments of its call to `distribute_subproblems` include the
name `samples2`, which is defined nowhere in the module (it exists only in
the benchmark scripts). -/
def nameErrSamples2 : String := "NameError: name samples2 is not defined"

/-- Source lines 80-81: `shifted_nbins_per_axis = np.ones_like(bins_per_axis)`
followed by `shifted_nbins_per_axis[:-1] = bins_per_axis[1:]`.  Entry `i` is
`bins_per_axis[i+1]` for `i < N-1` and `1` for the last axis (for the empty
vector both NumPy statements produce the empty vector). -/
def shifted_nbins_per_axis (bins_per_axis : List ℤ) : List ℤ :=
  match bins_per_axis with
  | [] => []
  | _ :: tail => tail ++ [1]

/-- Source lines 44-83, `compute_linearized_bin_coords`: the dot product of
every coordinate row with `shifted_nbins_per_axis` (the trailing `[:, None]`
only reshapes the result to a column; we keep the vector of values). -/
def compute_linearized_bin_coords (bins_per_axis : List ℤ)
    (bins_coords : List (List ℤ)) : List ℤ :=
  bins_coords.map
    (fun row => (List.zipWith (· * ·) row (shifted_nbins_per_axis bins_per_axis)).sum)

/-- Key-ordering used to model `a[a[:, 0].argsort()]`: rows compared by their
first column. -/
def pairKeyLE (p q : ℤ × α) : Prop := p.1 ≤ q.1

instance : DecidableRel (pairKeyLE (α := α)) :=
  fun p q => inferInstanceAs (Decidable (p.1 ≤ q.1))

instance : IsTotal (ℤ × α) pairKeyLE := ⟨fun p q => le_total p.1 q.1⟩

instance : IsTrans (ℤ × α) pairKeyLE := ⟨fun _ _ _ h h₂ => le_trans h h₂⟩

/-- Source line 40: `a = a[a[:, 0].argsort()]`, sorting the rows of the
2-column array by the first column (stable model of `argsort`). -/
def sortPairs (a : List (ℤ × α)) : List (ℤ × α) :=
  List.insertionSort pairKeyLE a

/-- `np.unique(ks, return_index=True)[1]` for a sorted key column `ks`: the
index of the first occurrence of each distinct value, in ascending order of
value — i.e. the positions where the sorted key column changes.  `go` walks
the tail carrying the previous key and the current position. -/
def changeIndicesGo (prev : ℤ) : List ℤ → ℕ → List ℕ
  | [], _ => []
  | k :: rest, i =>
      if k = prev then changeIndicesGo k rest (i + 1)
      else i :: changeIndicesGo k rest (i + 1)

/-- See `changeIndicesGo`; index `0` is always a first occurrence. -/
def changeIndices : List ℤ → List ℕ
  | [] => []
  | k :: rest => 0 :: changeIndicesGo k rest 1

/-- Helper for `splitAtIndices`: `prev` is the left edge of the pending
chunk, so the chunk ending at cut position `i` is `vals[prev : i]`, and the
final chunk is `vals[prev :]`. -/
def splitAtIndicesGo (vals : List α) : ℕ → List ℕ → List (List α)
  | prev, [] => [vals.drop prev]
  | prev, i :: rest =>
      (vals.drop prev).take (i - prev) :: splitAtIndicesGo vals i rest

/-- `np.split(vals, idxs)`: cut `vals` at the given (ascending) positions,
producing the chunks `vals[0:i₁], vals[i₁:i₂], …, vals[iₖ:]`.  With no
positions the result is the single chunk `[vals]` — in particular `np.split`
of an empty array at no positions is `[empty]`, not `[]`. -/
def splitAtIndices (vals : List α) (idxs : List ℕ) : List (List α) :=
  splitAtIndicesGo vals 0 idxs

/-- Source lines 6-41, `group_by`: sort the rows by the first column, then
split the second column at the first-occurrence indices of the distinct keys
(dropping the leading `0`). -/
def group_by (a : List (ℤ × α)) : List (List α) :=
  let s := sortPairs a
  splitAtIndices (s.map Prod.snd) ((changeIndices (s.map Prod.fst)).drop 1)

/-- Specification-side view of grouping a key-sorted pair list: the maximal
run of the head key becomes the first group of values, and the remainder is
grouped recursively.  Used only in proofs, to characterise `group_by`. -/
def groupPairs : List (ℤ × α) → List (List α)
  | [] => []
  | p :: t =>
      (((p :: t).takeWhile (fun q => q.1 == p.1)).map Prod.snd) ::
        groupPairs ((p :: t).dropWhile (fun q => q.1 == p.1))
termination_by l => l.length
decreasing_by
  rw [List.dropWhile_cons_of_pos (by simp)]
  exact Nat.lt_succ_of_le (t.dropWhile_sublist _).length_le

/-- The key of each maximal run of a key-sorted pair list, in order.  Used
only in proofs. -/
def runKeys : List (ℤ × α) → List ℤ
  | [] => []
  | p :: t => p.1 :: runKeys ((p :: t).dropWhile (fun q => q.1 == p.1))
termination_by l => l.length
decreasing_by
  rw [List.dropWhile_cons_of_pos (by simp)]
  exact Nat.lt_succ_of_le (t.dropWhile_sublist _).length_le

/-- Successive chunks of `l` with the given sizes (the slices that
`np.array_split` builds from its cumulative `div_points`). -/
def chunksBySizes : List ℕ → List α → List (List α)
  | [], _ => []
  | s :: rest, l => l.take s :: chunksBySizes rest (l.drop s)

/-- `np.array_split(l, n)`: raises for `n ≤ 0`; otherwise with
`q, r = divmod(len(l), n)` returns `r` chunks of size `q+1` followed by
`n - r` chunks of size `q`. -/
def array_split (l : List α) (n : ℤ) : Except String (List (List α)) :=
  if n ≤ 0 then Except.error numberSectionsErr
  else
    let nn := n.toNat
    let q := l.length / nn
    let r := l.length % nn
    Except.ok (chunksBySizes (List.replicate r (q + 1) ++ List.replicate (nn - r) q) l)

/-- The chunk list `np.array_split(g, ceil(len(g) / k))` produces (its
`Except`-free value, used to state what `extract_subproblems` returns).
Used only in proofs. -/
def ceilChunks (k : ℤ) (g : List ℕ) : List (List ℕ) :=
  let nn := (Int.ceil ((g.length : ℚ) / (k : ℚ))).toNat
  let q := g.length / nn
  let r := g.length % nn
  chunksBySizes (List.replicate r (q + 1) ++ List.replicate (nn - r) q) g

/-- Source lines 86-118, `extract_subproblems`: for `n_per_subgroup ≠ -1`
split each bin into `np.ceil(len(arr) / n_per_subgroup)` sections with
`np.array_split`; for the sentinel `-1` wrap each bin whole in a 1-tuple.
(The Python `map` is lazy; it is modelled eagerly, so an exception raised
while splitting some bin surfaces as the `Except.error` of the whole call.) -/
def extract_subproblems (indexes : List (List ℕ)) (n_per_subgroup : ℤ) :
    Except String (List (List (List ℕ))) :=
  if n_per_subgroup ≠ -1 then
    indexes.mapM
      (fun arr => array_split arr (Int.ceil ((arr.length : ℚ) / (n_per_subgroup : ℚ))))
  else
    Except.ok (indexes.map (fun arr => [arr]))

/-- Source lines 176-178 of `distribute_subproblems`:
`np.floor_divide(pts, uniform_grid_cell_size * bins_size).astype(int)`,
row by row and axis by axis. -/
def raw_bin_coords (uniform_grid_cell_size : List ℚ) (bins_size : List ℤ)
    (pts : List (List ℚ)) : List (List ℤ) :=
  pts.map (fun p =>
    List.zipWith (fun x c => Int.floor (x / c)) p
      (List.zipWith (fun s b => s * (b : ℚ)) uniform_grid_cell_size bins_size))

/-- Source line 181 of `distribute_subproblems`:
`np.clip(bin_coords, None, uniform_grid_cell_count - 1, out=bin_coords)` —
an upper clip against `cell_count - 1` on each axis, and no lower clip
(`None` as the minimum). -/
def clip_bin_coords (coords : List (List ℤ)) (uniform_grid_cell_count : List ℤ) :
    List (List ℤ) :=
  coords.map (fun row => List.zipWith (fun c m => min c (m - 1)) row uniform_grid_cell_count)

/-- The bin-coordinate computation of `distribute_subproblems`
(source lines 176-181): floor-divide then upper-clip. -/
def compute_bin_coords (uniform_grid_cell_size : List ℚ) (bins_size : List ℤ)
    (uniform_grid_cell_count : List ℤ) (pts : List (List ℚ)) : List (List ℤ) :=
  clip_bin_coords (raw_bin_coords uniform_grid_cell_size bins_size pts)
    uniform_grid_cell_count

/-- The tuple a dispatched subproblem carries (source lines 207-213,
`bin_content_tuple`): gathered points, owning bin coordinate, global point
indices, gathered weights. -/
structure SubproblemResult where
  points : List (List ℚ)
  bin_coord : List ℤ
  nup_idxes : List ℕ
  weights : List ℚ
  deriving Repr, DecidableEq

/-- Source lines 207-213: `(pts[bin_content], bin_coords[bin_content[0]],
bin_content, weights[bin_content])`.  On an empty subgroup `bin_content[0]`
raises `IndexError`.  Gathering is modelled with `List.getD`; the fallback
values are unreachable for the in-range indices `distribute_subproblems`
produces (as proved below). -/
def bin_content_tuple (pts : List (List ℚ)) (weights : List ℚ)
    (bin_coords : List (List ℤ)) (bin_content : List ℕ) :
    Except String SubproblemResult :=
  match bin_content with
  | [] => Except.error indexErr
  | i0 :: _ =>
      Except.ok
        { points := bin_content.map (fun i => pts.getD i [])
          bin_coord := bin_coords.getD i0 []
          nup_idxes := bin_content
          weights := bin_content.map (fun i => weights.getD i 0) }

/-- The value `bin_content_tuple` returns on a non-empty subgroup (its
`Except`-free form, used to state what `distribute_subproblems` returns).
Used only in proofs. -/
def mkSubproblem (pts : List (List ℚ)) (weights : List ℚ)
    (bin_coords : List (List ℤ)) (bin_content : List ℕ) : SubproblemResult :=
  { points := bin_content.map (fun i => pts.getD i [])
    bin_coord := bin_coords.getD (bin_content.headD 0) []
    nup_idxes := bin_content
    weights := bin_content.map (fun i => weights.getD i 0) }

/-- Source lines 121-220, `distribute_subproblems`: bins per axis by integer
division, bin coordinates by floor-divide-and-clip, linearization,
augmentation with the point index, `group_by`, subproblem extraction, and
one `bin_content_tuple` per flattened subgroup.  The Dask scatter/map
plumbing only moves data; the dispatched values are returned directly. -/
def distribute_subproblems (uniform_grid_cell_size : List ℚ)
    (uniform_grid_cell_count : List ℤ) (bins_size : List ℤ)
    (pts : List (List ℚ)) (weights : List ℚ) (pts_per_future : ℤ) :
    Except String (List SubproblemResult) :=
  let bins_per_axis := List.zipWith Int.fdiv uniform_grid_cell_count bins_size
  let bin_coords := compute_bin_coords uniform_grid_cell_size bins_size
    uniform_grid_cell_count pts
  let linearized_bin_coords := compute_linearized_bin_coords bins_per_axis bin_coords
  let aug_linearized_bin_coords := linearized_bin_coords.zip (List.range pts.length)
  let indexes_inside_bins := group_by aug_linearized_bin_coords
  do
    let subproblems ← extract_subproblems indexes_inside_bins pts_per_future
    subproblems.flatten.mapM (bin_content_tuple pts weights bin_coords)

/-- Source lines 227-262, `compute_mapped_distance_on_subgroup`.  Its first
statement is `subgroup, bin_coords, nup_idxes, weights = subgroups_and_coords`,
but no name `subgroups_and_coords` exists (the parameter is `subgroup_info`),
so every call raises `NameError` before computing anything.  (Past that
statement the function would also call `build_uniform_grid_bin`, whose body
returns the undefined names `grid, idxes`, and compare `distances` with the
undefined name `max_distance` instead of its `max_distance_in_cells`
parameter.)  The result type records what a successful run would have
returned: the mapped-distance submatrix and the index tuple. -/
def compute_mapped_distance_on_subgroup (subgroup_info : SubproblemResult)
    (uniform_grid_cell_size : List ℚ) (uniform_grid_cell_count : List ℤ)
    (bins_size : List ℤ) (max_distance_in_cells : ℚ) (function : ℚ → ℚ)
    (exact_max_distance : Bool) (reference_bin : List ℤ) :
    Except String (List (List ℚ) × List (List ℕ)) :=
  Except.error nameErrSubgroups

/-- Source lines 265-354, `mapped_distance_matrix`.  After defaulting
`weights` to ones (lines 320-321), the argument list of its call to
`distribute_subproblems` evaluates the name `samples2` (line 327), which is
undefined in the module, so every call raises `NameError` before any
subproblem is dispatched — regardless of geometry, shapes, or
`pts_per_future`.  No validation of the inputs is performed anywhere in the
function.  The result type records the output a successful run would have
produced (the reshaped dense array). -/
def mapped_distance_matrix (uniform_grid_cell_size : List ℚ)
    (uniform_grid_cell_count : List ℤ) (bins_size : List ℤ)
    (non_uniform_points : List (List ℚ)) (max_distance : ℚ) (func : ℚ → ℚ)
    (weights : Option (List ℚ)) (exact_max_distance : Bool)
    (pts_per_future : ℤ) : Except String (List (List ℚ)) :=
  let _w := weights.getD (List.replicate non_uniform_points.length 1)
  Except.error nameErrSamples2

/-! ### Helper lemmas about `chunksBySizes` and `array_split` -/

theorem sum_replicate_nat (n x : ℕ) : (List.replicate n x).sum = n * x := by
  induction n with
  | zero => simp
  | succ m ih => simp [List.replicate_succ, ih, Nat.succ_mul, Nat.add_comm]

theorem chunksBySizes_length (sizes : List ℕ) (l : List α) :
    (chunksBySizes sizes l).length = sizes.length := by
  induction sizes generalizing l with
  | nil => simp [chunksBySizes]
  | cons s rest ih => simp [chunksBySizes, ih]

theorem chunksBySizes_map_length (sizes : List ℕ) (l : List α)
    (h : sizes.sum = l.length) :
    (chunksBySizes sizes l).map List.length = sizes := by
  induction sizes generalizing l with
  | nil => simp [chunksBySizes]
  | cons s rest ih =>
      have hs : s ≤ l.length := by simp [List.sum_cons] at h; omega
      have hd : (l.drop s).length = rest.sum := by
        simp [List.length_drop]
        simp [List.sum_cons] at h
        omega
      simp [chunksBySizes, List.length_take, Nat.min_eq_left hs, ih _ hd.symm]

theorem chunksBySizes_flatten (sizes : List ℕ) (l : List α)
    (h : sizes.sum = l.length) :
    (chunksBySizes sizes l).flatten = l := by
  induction sizes generalizing l with
  | nil =>
      simp [List.sum_nil] at h
      simp [chunksBySizes, List.eq_nil_of_length_eq_zero h.symm]
  | cons s rest ih =>
      have hd : rest.sum = (l.drop s).length := by
        simp [List.length_drop]
        simp [List.sum_cons] at h
        omega
      simp [chunksBySizes, List.flatten_cons, ih _ hd, List.take_append_drop]

theorem chunksBySizes_mem_length (sizes : List ℕ) (l : List α)
    (h : sizes.sum = l.length) (c : List α) (hc : c ∈ chunksBySizes sizes l) :
    c.length ∈ sizes := by
  have := chunksBySizes_map_length sizes l h
  rw [← this]
  exact List.mem_map_of_mem List.length hc

/-- Arithmetic facts about the section count `⌈L / k⌉` that
`extract_subproblems` requests from `np.array_split`. -/
theorem ceil_sections_facts (L : ℕ) (k : ℤ) (hk : 1 ≤ k) (hL : 1 ≤ L) :
    1 ≤ (Int.ceil ((L : ℚ) / (k : ℚ))).toNat ∧
      (Int.ceil ((L : ℚ) / (k : ℚ))).toNat ≤ L ∧
      L ≤ k.toNat * (Int.ceil ((L : ℚ) / (k : ℚ))).toNat ∧
      ((Int.ceil ((L : ℚ) / (k : ℚ))).toNat : ℤ) = Int.ceil ((L : ℚ) / (k : ℚ)) := by
  have hk0 : (0 : ℚ) < (k : ℚ) := by exact_mod_cast lt_of_lt_of_le one_pos hk
  have hL0 : (0 : ℚ) < (L : ℚ) := by exact_mod_cast hL
  have hpos : 0 < Int.ceil ((L : ℚ) / (k : ℚ)) := by
    rw [Int.ceil_pos]
    positivity
  have htn : ((Int.ceil ((L : ℚ) / (k : ℚ))).toNat : ℤ) = Int.ceil ((L : ℚ) / (k : ℚ)) :=
    Int.toNat_of_nonneg (le_of_lt hpos)
  refine ⟨by omega, ?_, ?_, htn⟩
  · have hle : Int.ceil ((L : ℚ) / (k : ℚ)) ≤ (L : ℤ) := by
      rw [Int.ceil_le]
      push_cast
      exact div_le_self (le_of_lt hL0) (by exact_mod_cast hk)
    omega
  · have hc := Int.le_ceil ((L : ℚ) / (k : ℚ))
    rw [div_le_iff₀ hk0] at hc
    have hzk : (L : ℤ) ≤ k * Int.ceil ((L : ℚ) / (k : ℚ)) := by
      have h2 : (L : ℚ) ≤ ((k * Int.ceil ((L : ℚ) / (k : ℚ)) : ℤ) : ℚ) := by
        push_cast
        rw [mul_comm]
        exact hc
      exact_mod_cast h2
    have hkt : (k.toNat : ℤ) = k := Int.toNat_of_nonneg (by omega)
    have h3 : (L : ℤ) ≤ ((k.toNat * (Int.ceil ((L : ℚ) / (k : ℚ))).toNat : ℕ) : ℤ) := by
      push_cast
      rw [htn, hkt]
      exact hzk
    exact_mod_cast h3

/-- `np.array_split` on a non-empty list with `⌈L / k⌉` sections, `k ≥ 1`:
it succeeds, produces exactly `⌈L / k⌉` chunks whose concatenation is the
input, every chunk is non-empty, and every chunk has at most `k` elements. -/
theorem array_split_ceil_spec (l : List α) (k : ℤ) (hk : 1 ≤ k) (hl : l ≠ []) :
    ∃ chunks, array_split l (Int.ceil ((l.length : ℚ) / (k : ℚ))) = Except.ok chunks ∧
      (chunks.length : ℤ) = Int.ceil ((l.length : ℚ) / (k : ℚ)) ∧
      chunks.flatten = l ∧
      (∀ c ∈ chunks, c ≠ [] ∧ (c.length : ℤ) ≤ k) := by
  have hL : 1 ≤ l.length := List.length_pos.mpr hl
  obtain ⟨h1, h2, h3, h4⟩ := ceil_sections_facts l.length k hk hL
  set n := Int.ceil ((l.length : ℚ) / (k : ℚ)) with hn
  set nn := n.toNat with hnn
  set L := l.length with hLdef
  set q := L / nn with hq
  set r := L % nn with hr
  have hnn0 : 0 < nn := h1
  have hrnn : r < nn := Nat.mod_lt _ hnn0
  have hsum : (List.replicate r (q + 1) ++ List.replicate (nn - r) q).sum = L := by
    rw [List.sum_append, sum_replicate_nat, sum_replicate_nat]
    have hdm : nn * q + r = L := by
      rw [hq, hr]
      exact Nat.div_add_mod L nn
    have hrq : r * q ≤ nn * q := Nat.mul_le_mul_right q (le_of_lt hrnn)
    have hsub : (nn - r) * q = nn * q - r * q := Nat.sub_mul nn r q
    have hexp : r * (q + 1) = r * q + r := by ring
    omega
  have hnpos : ¬ n ≤ 0 := by omega
  refine ⟨chunksBySizes (List.replicate r (q + 1) ++ List.replicate (nn - r) q) l,
    ?_, ?_, ?_, ?_⟩
  · simp only [array_split, if_neg hnpos]
  · rw [chunksBySizes_length]
    simp only [List.length_append, List.length_replicate]
    omega
  · exact chunksBySizes_flatten _ _ hsum
  · intro c hc
    have hmem := chunksBySizes_mem_length _ _ hsum c hc
    have hq1 : 1 ≤ q := (Nat.one_le_div_iff hnn0).mpr h2
    have hqk : q ≤ k.toNat := by
      calc q = L / nn := hq
        _ ≤ k.toNat * nn / nn := Nat.div_le_div_right h3
        _ = k.toNat := Nat.mul_div_cancel _ hnn0
    have hkt : (k.toNat : ℤ) = k := Int.toNat_of_nonneg (by omega)
    rcases List.mem_append.mp hmem with hm | hm
    · have hcl := List.eq_of_mem_replicate hm
      have hr0 : r ≠ 0 := by
        intro h0
        rw [h0] at hm
        simp at hm
      have hLlt : L < k.toNat * nn := by
        rcases Nat.lt_or_ge L (k.toNat * nn) with h | h
        · exact h
        · exfalso
          have hLeq : L = k.toNat * nn := le_antisymm h3 h
          have : r = 0 := by
            rw [hr, hLeq]
            exact Nat.mul_mod_left _ _
          exact hr0 this
      have hqlt : q < k.toNat := by
        rw [hq]
        exact (Nat.div_lt_iff_lt_mul hnn0).mpr (by omega)
      constructor
      · intro hcnil
        rw [hcnil] at hcl
        simp at hcl
      · rw [hcl]
        omega
    · have hcl := List.eq_of_mem_replicate hm
      constructor
      · intro hcnil
        rw [hcnil] at hcl
        simp at hcl
        omega
      · rw [hcl]
        omega

/-- If `f` succeeds pointwise with values `g`, then `mapM f` succeeds with
`map g` (the `Except` monad). -/
theorem mapM_ok_of_forall {β : Type} (f : α → Except String β) (g : α → β)
    (l : List α) (h : ∀ x ∈ l, f x = Except.ok (g x)) :
    l.mapM f = Except.ok (l.map g) := by
  induction l with
  | nil => rfl
  | cons a t ih =>
      rw [List.mapM_cons, h a (List.mem_cons_self a t),
        ih (fun x hx => h x (List.mem_cons_of_mem a hx))]
      rfl

theorem getD_map_of_lt (f : α → β) (l : List α) (i : ℕ) (d : β) (d₂ : α)
    (h : i < l.length) : (l.map f).getD i d = f (l.getD i d₂) := by
  rw [List.getD_eq_getElem _ _ (by simpa using h), List.getD_eq_getElem _ _ h]
  simp

theorem array_split_eq_ok (l : List ℕ) (k : ℤ) (hk : 1 ≤ k) (hl : l ≠ []) :
    array_split l (Int.ceil ((l.length : ℚ) / (k : ℚ))) = Except.ok (ceilChunks k l) := by
  obtain ⟨h1, _, _, _⟩ := ceil_sections_facts l.length k hk (List.length_pos.mpr hl)
  have hpos : ¬ Int.ceil ((l.length : ℚ) / (k : ℚ)) ≤ 0 := by omega
  simp only [array_split, if_neg hpos, ceilChunks]

theorem ceilChunks_spec (l : List ℕ) (k : ℤ) (hk : 1 ≤ k) (hl : l ≠ []) :
    ((ceilChunks k l).length : ℤ) = Int.ceil ((l.length : ℚ) / (k : ℚ)) ∧
      (ceilChunks k l).flatten = l ∧
      (∀ c ∈ ceilChunks k l, c ≠ [] ∧ (c.length : ℤ) ≤ k) := by
  obtain ⟨chunks, heq, hlen, hflat, hall⟩ := array_split_ceil_spec l k hk hl
  rw [array_split_eq_ok l k hk hl] at heq
  obtain rfl : ceilChunks k l = chunks := Except.ok.inj heq
  exact ⟨hlen, hflat, hall⟩

theorem extract_subproblems_ok (groups : List (List ℕ)) (k : ℤ) (hk : 1 ≤ k)
    (hne : ∀ g ∈ groups, g ≠ []) :
    extract_subproblems groups k = Except.ok (groups.map (ceilChunks k)) := by
  rw [extract_subproblems, if_pos (by omega : k ≠ -1)]
  exact mapM_ok_of_forall _ (ceilChunks k) groups
    (fun g hg => array_split_eq_ok g k hk (hne g hg))

theorem extract_subproblems_unbounded (groups : List (List ℕ)) :
    extract_subproblems groups (-1) = Except.ok (groups.map (fun g => [g])) := by
  simp [extract_subproblems]

/-- Claim C4: for every grouping of non-empty per-bin index lists and every
bound `k ≥ 1`, `extract_subproblems` splits the list of each bin (of length
`L`) into `ceil(L / k)` chunks, every chunk is non-empty of size at most
`k`, the chunks of a bin concatenate back to exactly the bin's original
index list (hence their union is the bin's index set, with no index dropped
or duplicated), and — when the bin's indices are distinct — the chunks are
pairwise disjoint.  For the sentinel `-1` the result is exactly one
subproblem per bin containing the whole bin. -/
theorem extract_subproblems_bounded_spec (groups : List (List ℕ)) (k : ℤ)
    (hk : 1 ≤ k) (hne : ∀ g ∈ groups, g ≠ []) :
    (∃ res, extract_subproblems groups k = Except.ok res ∧
      res.length = groups.length ∧
      (∀ i, i < groups.length →
        ((res.getD i []).length : ℤ) =
            Int.ceil (((groups.getD i []).length : ℚ) / (k : ℚ)) ∧
          (∀ c ∈ res.getD i [], c ≠ [] ∧ (c.length : ℤ) ≤ k) ∧
          (res.getD i []).flatten = groups.getD i [] ∧
          ((groups.getD i []).Nodup → (res.getD i []).Pairwise List.Disjoint))) ∧
    extract_subproblems groups (-1) = Except.ok (groups.map (fun g => [g])) := by
  refine ⟨⟨groups.map (ceilChunks k), extract_subproblems_ok groups k hk hne, by simp, ?_⟩,
    extract_subproblems_unbounded groups⟩
  intro i hi
  have hgmem : groups.getD i [] ∈ groups := by
    rw [List.getD_eq_getElem _ _ hi]
    exact List.getElem_mem hi
  have hgne : groups.getD i [] ≠ [] := hne _ hgmem
  have hres : (groups.map (ceilChunks k)).getD i [] = ceilChunks k (groups.getD i []) :=
    getD_map_of_lt _ _ _ _ [] hi
  obtain ⟨hlen, hflat, hall⟩ := ceilChunks_spec (groups.getD i []) k hk hgne
  rw [hres]
  refine ⟨hlen, hall, hflat, fun hnd => ?_⟩
  have : (ceilChunks k (groups.getD i [])).flatten.Nodup := by
    rw [hflat]
    exact hnd
  exact (List.nodup_flatten.mp this).2

/-- Claim C4 witness: bin `[0,1,2]` with bound `k = 2` (the hypotheses of
`extract_subproblems_bounded_spec` hold and are discharged concretely). -/
theorem extract_subproblems_bounded_spec_witness :
    (∃ res, extract_subproblems [[0, 1, 2]] 2 = Except.ok res ∧
      res.length = [[0, 1, 2]].length ∧
      (∀ i, i < [[0, 1, 2]].length →
        ((res.getD i []).length : ℤ) =
            Int.ceil (((([[0, 1, 2]] : List (List ℕ)).getD i []).length : ℚ) / ((2 : ℤ) : ℚ)) ∧
          (∀ c ∈ res.getD i [], c ≠ [] ∧ (c.length : ℤ) ≤ 2) ∧
          (res.getD i []).flatten = ([[0, 1, 2]] : List (List ℕ)).getD i [] ∧
          ((([[0, 1, 2]] : List (List ℕ)).getD i []).Nodup →
            (res.getD i []).Pairwise List.Disjoint))) ∧
    extract_subproblems [[0, 1, 2]] (-1) =
      Except.ok (([[0, 1, 2]] : List (List ℕ)).map (fun g => [g])) :=
  extract_subproblems_bounded_spec [[0, 1, 2]] 2 (by decide)
    (by intro g hg; simp at hg; subst hg; decide)

/-- With a finite bound `k ≥ 1`, a grouping containing an empty index list
makes `extract_subproblems` fail with the zero-sections error of
`np.array_split` (shared helper for the claims below). -/
theorem extract_subproblems_error_of_empty (groups : List (List ℕ)) (k : ℤ)
    (hk : 1 ≤ k) (hmem : [] ∈ groups) :
    extract_subproblems groups k = Except.error numberSectionsErr := by
  rw [extract_subproblems, if_pos (by omega : k ≠ -1)]
  induction groups with
  | nil => cases hmem
  | cons g gs ih =>
      rw [List.mapM_cons]
      by_cases hg : g = []
      · subst hg
        have hzero : array_split ([] : List ℕ)
            (Int.ceil ((([] : List ℕ).length : ℚ) / (k : ℚ))) =
            Except.error numberSectionsErr := by
          simp [array_split]
        rw [hzero]
        rfl
      · have hmem2 : [] ∈ gs := by
          cases hmem with
          | head => exact absurd rfl hg
          | tail _ h => exact h
        rw [array_split_eq_ok g k hk hg, ih hmem2]
        rfl

/-- Claim C10: with a finite bound `k ≥ 1`, a grouping that contains an
empty index list makes `extract_subproblems` fail with the `np.array_split`
error for zero sections (it requests `ceil(0 / k) = 0` sections), instead of
yielding zero subproblems for that bin; the unbounded sentinel `-1` accepts
the same grouping without error. -/
theorem extract_subproblems_empty_bin_error (groups : List (List ℕ)) (k : ℤ)
    (hk : 1 ≤ k) (hmem : [] ∈ groups) :
    extract_subproblems groups k = Except.error numberSectionsErr ∧
    extract_subproblems groups (-1) = Except.ok (groups.map (fun g => [g])) :=
  ⟨extract_subproblems_error_of_empty groups k hk hmem,
    extract_subproblems_unbounded groups⟩

/-- Claim C10 witness: the grouping `[[]]` with bound `k = 1` errors, while
the unbounded mode accepts it. -/
theorem extract_subproblems_empty_bin_error_witness :
    extract_subproblems [[]] 1 = Except.error numberSectionsErr ∧
    extract_subproblems [[]] (-1) =
      Except.ok (([[]] : List (List ℕ)).map (fun g => [g])) :=
  extract_subproblems_empty_bin_error [[]] 1 (by decide) (by simp)

/-- Claim C1 (code bug): `compute_linearized_bin_coords` multiplies axis `i`
by `bins_per_axis[i+1]` (a plain shift of the bins-per-axis vector), not by
the product of the bins-per-axis over all later axes.  On the example from
the claim — and from the function's own docstring — with
`bins_per_axis = [1,3,2]` it therefore returns `[3,6,1,7]`, not the
documented `[3,9,1,10]`; and the mapping is not injective on valid bin
coordinates: for `bins_per_axis = [2,3,2]` the distinct valid coordinates
`[1,0,0]` and `[0,1,1]` both linearize to `3`. -/
theorem compute_linearized_bin_coords_shift_bug :
    compute_linearized_bin_coords [1, 3, 2] [[0, 1, 1], [1, 1, 1], [0, 0, 1], [1, 2, 0]] =
        [3, 6, 1, 7] ∧
      compute_linearized_bin_coords [1, 3, 2]
          [[0, 1, 1], [1, 1, 1], [0, 0, 1], [1, 2, 0]] ≠ [3, 9, 1, 10] ∧
      compute_linearized_bin_coords [2, 3, 2] [[1, 0, 0], [0, 1, 1]] = [3, 3] := by
  refine ⟨by decide, ?_, by decide⟩
  intro h
  have : ([3, 6, 1, 7] : List ℤ) = [3, 9, 1, 10] := by
    rw [← h]
    decide
  simp at this

/-- Claim C2 (code bug): the clamp of `distribute_subproblems` is
`np.clip(bin_coords, None, uniform_grid_cell_count - 1)` — an upper clip
against the *cell* count, not the *bin* count, and no lower clip at all.
With cell size `[1]`, `bins_size = [2]`, cell count `[4]` (so
`bins_per_axis = [2]`, valid bin coordinates `{0, 1}`), the point `[8]`
gets bin coordinate `3` and the point `[-2]` gets `-1`, both outside
`[0, bins_per_axis - 1]`. -/
theorem compute_bin_coords_clip_bug :
    compute_bin_coords [1] [2] [4] [[8], [-2]] = [[3], [-1]] ∧
      List.zipWith Int.fdiv [4] [2] = [2] ∧
      ¬ ((3 : ℤ) ≤ 2 - 1) ∧ ¬ ((0 : ℤ) ≤ -1) := by
  refine ⟨?_, by decide, by decide, by decide⟩
  norm_num [compute_bin_coords, raw_bin_coords, clip_bin_coords]

/-- Claim C6 (code bug): `compute_mapped_distance_on_subgroup` never reaches
its masking logic — its first statement unpacks the undefined name
`subgroups_and_coords`, so every call raises `NameError` instead of
returning a result array (evaluated here on a concrete one-point
subproblem with the exact-cutoff flag both on and off). -/
theorem compute_mapped_distance_on_subgroup_name_error :
    compute_mapped_distance_on_subgroup
        ⟨[[0, 0]], [0, 0], [0], [1]⟩ [1, 1] [2, 2] [1, 1] 1 (fun d => d) true [0, 0] =
        Except.error nameErrSubgroups ∧
      compute_mapped_distance_on_subgroup
        ⟨[[0, 0]], [0, 0], [0], [1]⟩ [1, 1] [2, 2] [1, 1] 1 (fun d => d) false [0, 0] =
        Except.error nameErrSubgroups :=
  ⟨rfl, rfl⟩

/-- Claim C7 (code bug): `mapped_distance_matrix` cannot be compared across
`pts_per_future` bounds because it returns no array for any bound — every
call fails with the same `NameError` (the undefined `samples2`) before any
subproblem is dispatched.  Evaluated here on a well-formed 1-D input with
the unbounded sentinel `-1` and with the finite bound `5`. -/
theorem mapped_distance_matrix_no_result_for_any_bound :
    mapped_distance_matrix [1] [2] [1] [[1/2]] 1 (fun d => d) none true (-1) =
        Except.error nameErrSamples2 ∧
      mapped_distance_matrix [1] [2] [1] [[1/2]] 1 (fun d => d) none true 5 =
        Except.error nameErrSamples2 :=
  ⟨rfl, rfl⟩

/-- Claim C8 counterexample: a malformed call (negative cell size, weights
length 2 for a single point) and a well-formed call fail in exactly the same
way — with the `NameError` on `samples2`, not with any configuration check —
so it is false that well-formed inputs avoid the failure raised on malformed
ones. -/
theorem mapped_distance_matrix_wellformed_same_failure :
    mapped_distance_matrix [-1] [2] [1] [[1/2]] 1 (fun d => d) (some [1, 1]) true 5 =
        Except.error nameErrSamples2 ∧
      mapped_distance_matrix [1] [2] [1] [[1/2]] 1 (fun d => d) (some [1]) true 5 =
        Except.error nameErrSamples2 :=
  ⟨rfl, rfl⟩

/-- Claim C8 amended: `mapped_distance_matrix` performs no validation of
geometry or shapes; every call — malformed or well-formed — fails
synchronously, before any subproblem is dispatched, by evaluating the
undefined name `samples2`. -/
theorem mapped_distance_matrix_always_name_error
    (uniform_grid_cell_size : List ℚ) (uniform_grid_cell_count : List ℤ)
    (bins_size : List ℤ) (non_uniform_points : List (List ℚ)) (max_distance : ℚ)
    (func : ℚ → ℚ) (weights : Option (List ℚ)) (exact_max_distance : Bool)
    (pts_per_future : ℤ) :
    mapped_distance_matrix uniform_grid_cell_size uniform_grid_cell_count bins_size
        non_uniform_points max_distance func weights exact_max_distance pts_per_future =
      Except.error nameErrSamples2 :=
  rfl

/-- Claim C9 counterexample: `group_by` of the empty input is not the empty
grouping — `np.split` of an empty column at no positions yields one (empty)
chunk, so the result has one group, not zero. -/
theorem group_by_empty_not_zero_groups :
    group_by ([] : List (ℤ × ℤ)) ≠ [] ∧ (group_by ([] : List (ℤ × ℤ))).length = 1 := by
  constructor
  · intro h
    have : (group_by ([] : List (ℤ × ℤ))).length = 0 := by rw [h]; rfl
    rw [show group_by ([] : List (ℤ × ℤ)) = [[]] from rfl] at this
    simp at this
  · rfl

/-- Claim C9 amended: `group_by` of the empty input does not raise and
returns a grouping consisting of exactly one group, which is empty. -/
theorem group_by_empty_single_empty_group :
    group_by ([] : List (ℤ × ℤ)) = [[]] :=
  rfl

/-! ### Helper lemmas about `changeIndices` and `splitAtIndices` -/

theorem changeIndicesGo_shift (ks : List ℤ) : ∀ (prev : ℤ) (i j : ℕ),
    changeIndicesGo prev ks (j + i) = (changeIndicesGo prev ks j).map (· + i) := by
  induction ks with
  | nil => intro prev i j; rfl
  | cons k rest ih =>
      intro prev i j
      by_cases h : k = prev
      · simp only [changeIndicesGo, if_pos h]
        have harith : j + i + 1 = (j + 1) + i := by omega
        rw [harith]
        exact ih k i (j + 1)
      · simp only [changeIndicesGo, if_neg h, List.map_cons]
        have harith : j + i + 1 = (j + 1) + i := by omega
        rw [harith]
        exact congrArg _ (ih k i (j + 1))

theorem changeIndicesGo_append_run (run : List ℤ) : ∀ (rest : List ℤ) (prev : ℤ) (i : ℕ),
    (∀ x ∈ run, x = prev) →
    changeIndicesGo prev (run ++ rest) i = changeIndicesGo prev rest (i + run.length) := by
  induction run with
  | nil => intro rest prev i _; simp
  | cons x xs ih =>
      intro rest prev i h
      have hx : x = prev := h x (List.mem_cons_self x xs)
      subst hx
      rw [show (x :: xs) ++ rest = x :: (xs ++ rest) from rfl,
        show changeIndicesGo x (x :: (xs ++ rest)) i =
          changeIndicesGo x (xs ++ rest) (i + 1) by simp [changeIndicesGo]]
      rw [ih rest x (i + 1) (fun y hy => h y (List.mem_cons_of_mem _ hy))]
      congr 1
      simp [List.length_cons]
      omega

theorem dropWhile_head_false {p : α → Bool} :
    ∀ (l : List α) (x : α) (xs : List α), l.dropWhile p = x :: xs → p x = false := by
  intro l
  induction l with
  | nil => intro x xs h; cases h
  | cons a t ih =>
      intro x xs h
      rw [List.dropWhile_cons] at h
      cases hpa : p a with
      | true => rw [hpa] at h; simp at h; exact ih x xs h
      | false =>
          rw [hpa] at h
          simp at h
          obtain ⟨h1, _⟩ := h
          rw [← h1]
          exact hpa

theorem changeIndices_run (k : ℤ) (kt : List ℤ) :
    changeIndices (k :: kt) =
      0 :: (changeIndices (kt.dropWhile (fun x => x == k))).map
        (· + (1 + (kt.takeWhile (fun x => x == k)).length)) := by
  have htw : ∀ x ∈ kt.takeWhile (fun x => x == k), x = k := by
    intro x hx
    have := List.mem_takeWhile_imp hx
    simpa using this
  have hsplit :
      kt.takeWhile (fun x => x == k) ++ kt.dropWhile (fun x => x == k) = kt :=
    List.takeWhile_append_dropWhile (p := fun x => x == k) (l := kt)
  show 0 :: changeIndicesGo k kt 1 = _
  conv_lhs => rw [← hsplit]
  rw [changeIndicesGo_append_run _ _ k 1 htw]
  cases hdw : kt.dropWhile (fun x => x == k) with
  | nil => simp [changeIndices, changeIndicesGo]
  | cons k₁ t₁ =>
      have hne : k₁ ≠ k := by
        simpa using dropWhile_head_false kt k₁ t₁ hdw
      simp only [changeIndicesGo, if_neg hne, changeIndices, List.map_cons, Nat.zero_add]
      congr 1
      congr 1
      rw [show 1 + (kt.takeWhile (fun x => x == k)).length + 1 =
          1 + (1 + (kt.takeWhile (fun x => x == k)).length) from by omega]
      exact changeIndicesGo_shift t₁ k₁ (1 + (kt.takeWhile (fun x => x == k)).length) 1

theorem splitAtIndicesGo_shift (idxs : List ℕ) : ∀ (vals : List α) (prev m : ℕ),
    splitAtIndicesGo vals (prev + m) (idxs.map (· + m)) =
      splitAtIndicesGo (vals.drop m) prev idxs := by
  induction idxs with
  | nil =>
      intro vals prev m
      simp only [List.map_nil, splitAtIndicesGo, List.drop_drop]
      rw [Nat.add_comm m prev]
  | cons i rest ih =>
      intro vals prev m
      simp only [List.map_cons, splitAtIndicesGo]
      rw [List.drop_drop, Nat.add_comm m prev,
        show i + m - (prev + m) = i - prev from by omega]
      rw [ih vals i m]

/-! ### `group_by` is run-grouping of the sorted pair list -/

theorem groupPairs_flatten (n : ℕ) :
    ∀ (s : List (ℤ × α)), s.length ≤ n → (groupPairs s).flatten = s.map Prod.snd := by
  induction n with
  | zero =>
      intro s hlen
      have : s = [] := List.eq_nil_of_length_eq_zero (Nat.le_zero.mp hlen)
      subst this
      simp [groupPairs]
  | succ n ih =>
      intro s hlen
      cases s with
      | nil => simp [groupPairs]
      | cons p t =>
          rw [groupPairs]
          have hsplit : (p :: t).takeWhile (fun q => q.1 == p.1) ++
              (p :: t).dropWhile (fun q => q.1 == p.1) = p :: t :=
            List.takeWhile_append_dropWhile (p := fun q => q.1 == p.1) (l := p :: t)
          have hrest : (p :: t).dropWhile (fun q => q.1 == p.1) =
              t.dropWhile (fun q => q.1 == p.1) :=
            List.dropWhile_cons_of_pos (by simp)
          have hlen2 : ((p :: t).dropWhile (fun q => q.1 == p.1)).length ≤ n := by
            rw [hrest]
            have := (t.dropWhile_sublist (fun q => q.1 == p.1)).length_le
            simp at hlen
            omega
          rw [List.flatten_cons, ih _ hlen2, ← List.map_append, hsplit]

theorem groupPairs_ne_nil (n : ℕ) :
    ∀ (s : List (ℤ × α)), s.length ≤ n → ∀ g ∈ groupPairs s, g ≠ [] := by
  induction n with
  | zero =>
      intro s hlen
      have : s = [] := List.eq_nil_of_length_eq_zero (Nat.le_zero.mp hlen)
      subst this
      simp [groupPairs]
  | succ n ih =>
      intro s hlen g hg
      cases s with
      | nil => simp [groupPairs] at hg
      | cons p t =>
          rw [groupPairs] at hg
          have hrest : (p :: t).dropWhile (fun q => q.1 == p.1) =
              t.dropWhile (fun q => q.1 == p.1) :=
            List.dropWhile_cons_of_pos (by simp)
          cases hg with
          | head =>
              have hrun : (p :: t).takeWhile (fun q => q.1 == p.1) =
                  p :: t.takeWhile (fun q => q.1 == p.1) :=
                List.takeWhile_cons_of_pos (by simp)
              rw [hrun]
              simp
          | tail _ hg2 =>
              have hlen2 : ((p :: t).dropWhile (fun q => q.1 == p.1)).length ≤ n := by
                rw [hrest]
                have := (t.dropWhile_sublist (fun q => q.1 == p.1)).length_le
                simp at hlen
                omega
              exact ih _ hlen2 g hg2

/-- The composite that `group_by` applies to the sorted rows — split the
value column at the key-change positions — is exactly run-grouping. -/
theorem split_changeIndices_eq_groupPairs (n : ℕ) :
    ∀ (s : List (ℤ × α)), s.length ≤ n → s ≠ [] →
      splitAtIndices (s.map Prod.snd) ((changeIndices (s.map Prod.fst)).drop 1) =
        groupPairs s := by
  induction n with
  | zero =>
      intro s hlen hne
      exact absurd (List.eq_nil_of_length_eq_zero (Nat.le_zero.mp hlen)) hne
  | succ n ih =>
      intro s hlen hne
      cases s with
      | nil => exact absurd rfl hne
      | cons p t =>
          have hrun : (p :: t).takeWhile (fun q => q.1 == p.1) =
              p :: t.takeWhile (fun q => q.1 == p.1) :=
            List.takeWhile_cons_of_pos (by simp)
          have hrest : (p :: t).dropWhile (fun q => q.1 == p.1) =
              t.dropWhile (fun q => q.1 == p.1) :=
            List.dropWhile_cons_of_pos (by simp)
          have hsplit : (p :: t).takeWhile (fun q => q.1 == p.1) ++
              (p :: t).dropWhile (fun q => q.1 == p.1) = p :: t :=
            List.takeWhile_append_dropWhile (p := fun q => q.1 == p.1) (l := p :: t)
          have htwmap : (t.map Prod.fst).takeWhile (fun x => x == p.1) =
              (t.takeWhile (fun q => q.1 == p.1)).map Prod.fst := by
            rw [List.takeWhile_map]
            rfl
          have hdwmap : (t.map Prod.fst).dropWhile (fun x => x == p.1) =
              (t.dropWhile (fun q => q.1 == p.1)).map Prod.fst := by
            rw [List.dropWhile_map]
            rfl
          have hkeys : (p :: t).map Prod.fst = p.1 :: t.map Prod.fst := rfl
          rw [hkeys, changeIndices_run p.1 (t.map Prod.fst), htwmap, hdwmap,
            List.drop_one, List.tail_cons, groupPairs]
          rw [List.length_map]
          cases hdw : t.dropWhile (fun q => q.1 == p.1) with
          | nil =>
              have hs : (p :: t).takeWhile (fun q => q.1 == p.1) = p :: t := by
                have h2 := hsplit
                rw [hrest, hdw, List.append_nil] at h2
                exact h2
              rw [hrest, hdw, hs]
              simp [changeIndices, splitAtIndices, splitAtIndicesGo, groupPairs]
          | cons r₀ r₁ =>
              have hci : changeIndices ((r₀ :: r₁).map Prod.fst) =
                  0 :: (changeIndices ((r₀ :: r₁).map Prod.fst)).drop 1 := rfl
              have hidx : (0 :: (changeIndices ((r₀ :: r₁).map Prod.fst)).drop 1).map
                  (fun x => x + (1 + (t.takeWhile (fun q => q.1 == p.1)).length)) =
                  (1 + (t.takeWhile (fun q => q.1 == p.1)).length) ::
                    ((changeIndices ((r₀ :: r₁).map Prod.fst)).drop 1).map
                      (fun x => x + (1 + (t.takeWhile (fun q => q.1 == p.1)).length)) := by
                simp
              rw [hci, hidx]
              simp only [splitAtIndices]
              rw [splitAtIndicesGo]
              have hvals : (p :: t).map Prod.snd =
                  ((p :: t).takeWhile (fun q => q.1 == p.1)).map Prod.snd ++
                    ((p :: t).dropWhile (fun q => q.1 == p.1)).map Prod.snd := by
                rw [← List.map_append, hsplit]
              have hm : (((p :: t).takeWhile (fun q => q.1 == p.1)).map Prod.snd).length =
                  1 + (t.takeWhile (fun q => q.1 == p.1)).length := by
                rw [List.length_map, hrun]
                simp [Nat.add_comm]
              have htake : ((p :: t).map Prod.snd).take
                  (1 + (t.takeWhile (fun q => q.1 == p.1)).length) =
                  ((p :: t).takeWhile (fun q => q.1 == p.1)).map Prod.snd := by
                rw [hvals]
                exact List.take_left' hm
              have hdrop : ((p :: t).map Prod.snd).drop
                  (1 + (t.takeWhile (fun q => q.1 == p.1)).length) =
                  ((p :: t).dropWhile (fun q => q.1 == p.1)).map Prod.snd := by
                rw [hvals]
                exact List.drop_left' hm
              have hsh := splitAtIndicesGo_shift
                ((changeIndices ((r₀ :: r₁).map Prod.fst)).drop 1)
                ((p :: t).map Prod.snd) 0 (1 + (t.takeWhile (fun q => q.1 == p.1)).length)
              rw [Nat.zero_add] at hsh
              rw [List.drop_zero, Nat.sub_zero, htake, hsh, hdrop, hrest, hdw]
              congr 1
              have hlen2 : (r₀ :: r₁).length ≤ n := by
                have hlsum : ((p :: t).takeWhile (fun q => q.1 == p.1)).length +
                    ((p :: t).dropWhile (fun q => q.1 == p.1)).length = (p :: t).length := by
                  rw [← List.length_append, hsplit]
                rw [hrun, hrest, hdw] at hlsum
                simp at hlsum hlen ⊢
                omega
              have := ih (r₀ :: r₁) hlen2 (List.cons_ne_nil r₀ r₁)
              rw [← this]
              rfl

theorem group_by_eq_groupPairs (a : List (ℤ × α)) (ha : a ≠ []) :
    group_by a = groupPairs (sortPairs a) := by
  have hsne : sortPairs a ≠ [] := by
    intro h
    apply ha
    have hlen := (List.perm_insertionSort pairKeyLE a).length_eq
    rw [show List.insertionSort pairKeyLE a = sortPairs a from rfl, h] at hlen
    exact List.eq_nil_of_length_eq_zero hlen.symm
  show splitAtIndices ((sortPairs a).map Prod.snd)
      ((changeIndices ((sortPairs a).map Prod.fst)).drop 1) = groupPairs (sortPairs a)
  exact split_changeIndices_eq_groupPairs (sortPairs a).length _ le_rfl hsne

/-- In a key-sorted pair list, every element surviving the `dropWhile` of the
head key has a strictly larger key. -/
theorem sorted_dropWhile_lt (p : ℤ × α) (t : List (ℤ × α))
    (hs : List.Sorted pairKeyLE (p :: t)) :
    ∀ y ∈ (p :: t).dropWhile (fun q => q.1 == p.1), p.1 < y.1 := by
  intro y hy
  have hrest : (p :: t).dropWhile (fun q => q.1 == p.1) =
      t.dropWhile (fun q => q.1 == p.1) :=
    List.dropWhile_cons_of_pos (by simp)
  rw [hrest] at hy
  cases hdw : t.dropWhile (fun q => q.1 == p.1) with
  | nil => rw [hdw] at hy; cases hy
  | cons r₀ r₁ =>
      rw [hdw] at hy
      have hr₀ne : (r₀.1 == p.1) = false := dropWhile_head_false t r₀ r₁ hdw
      have hr₀mem : r₀ ∈ t :=
        List.Sublist.mem (hdw ▸ List.mem_cons_self r₀ r₁) (t.dropWhile_sublist _)
      have hple : pairKeyLE p r₀ := List.rel_of_sorted_cons hs r₀ hr₀mem
      have hplt : p.1 < r₀.1 := by
        have : r₀.1 ≠ p.1 := by simpa using hr₀ne
        exact lt_of_le_of_ne hple (Ne.symm this)
      rcases List.mem_cons.mp hy with rfl | hy2
      · exact hplt
      · have hsdw : List.Sorted pairKeyLE (r₀ :: r₁) := by
          have := List.Pairwise.sublist (t.dropWhile_sublist (fun q => q.1 == p.1)) hs.of_cons
          rwa [hdw] at this
        exact lt_of_lt_of_le hplt (List.rel_of_sorted_cons hsdw y hy2)

theorem runKeys_subset (n : ℕ) :
    ∀ (s : List (ℤ × α)), s.length ≤ n → ∀ key ∈ runKeys s, key ∈ s.map Prod.fst := by
  induction n with
  | zero =>
      intro s hlen
      have : s = [] := List.eq_nil_of_length_eq_zero (Nat.le_zero.mp hlen)
      subst this
      simp [runKeys]
  | succ n ih =>
      intro s hlen key hkey
      cases s with
      | nil => simp [runKeys] at hkey
      | cons p t =>
          rw [runKeys] at hkey
          have hrest : (p :: t).dropWhile (fun q => q.1 == p.1) =
              t.dropWhile (fun q => q.1 == p.1) :=
            List.dropWhile_cons_of_pos (by simp)
          rcases List.mem_cons.mp hkey with rfl | hkey2
          · simp
          · rw [hrest] at hkey2
            have hlen2 : (t.dropWhile (fun q => q.1 == p.1)).length ≤ n := by
              have := (t.dropWhile_sublist (fun q => q.1 == p.1)).length_le
              simp at hlen
              omega
            have hkey3 := ih _ hlen2 key hkey2
            have hsub : List.Sublist ((t.dropWhile (fun q => q.1 == p.1)).map Prod.fst)
                (t.map Prod.fst) :=
              (t.dropWhile_sublist _).map Prod.fst
            have hkey4 : key ∈ t.map Prod.fst := List.Sublist.mem hkey3 hsub
            simp [hkey4]

theorem runKeys_chain (n : ℕ) :
    ∀ (s : List (ℤ × α)), s.length ≤ n → List.Sorted pairKeyLE s →
      List.Chain' (· < ·) (runKeys s) := by
  induction n with
  | zero =>
      intro s hlen _
      have : s = [] := List.eq_nil_of_length_eq_zero (Nat.le_zero.mp hlen)
      subst this
      simp [runKeys]
  | succ n ih =>
      intro s hlen hsort
      cases s with
      | nil => simp [runKeys]
      | cons p t =>
          rw [runKeys]
          have hrest : (p :: t).dropWhile (fun q => q.1 == p.1) =
              t.dropWhile (fun q => q.1 == p.1) :=
            List.dropWhile_cons_of_pos (by simp)
          apply List.chain'_cons'.mpr
          constructor
          · intro b hb
            rw [hrest] at hb
            cases hdw : t.dropWhile (fun q => q.1 == p.1) with
            | nil => rw [hdw] at hb; simp [runKeys] at hb
            | cons r₀ r₁ =>
                rw [hdw, runKeys] at hb
                simp only [List.head?_cons, Option.mem_some_iff] at hb
                subst hb
                apply sorted_dropWhile_lt p t hsort
                rw [hrest, hdw]
                exact List.mem_cons_self r₀ r₁
          · have hlen2 : ((p :: t).dropWhile (fun q => q.1 == p.1)).length ≤ n := by
              rw [hrest]
              have := (t.dropWhile_sublist (fun q => q.1 == p.1)).length_le
              simp at hlen
              omega
            have hsort2 : List.Sorted pairKeyLE ((p :: t).dropWhile (fun q => q.1 == p.1)) :=
              List.Pairwise.sublist ((p :: t).dropWhile_sublist _) hsort
            exact ih _ hlen2 hsort2

theorem runKeys_mem (n : ℕ) :
    ∀ (s : List (ℤ × α)), s.length ≤ n → List.Sorted pairKeyLE s →
      ∀ key, key ∈ runKeys s ↔ key ∈ s.map Prod.fst := by
  induction n with
  | zero =>
      intro s hlen _
      have : s = [] := List.eq_nil_of_length_eq_zero (Nat.le_zero.mp hlen)
      subst this
      simp [runKeys]
  | succ n ih =>
      intro s hlen hsort key
      cases s with
      | nil => simp [runKeys]
      | cons p t =>
          constructor
          · exact fun h => runKeys_subset (n + 1) (p :: t) hlen key h
          · intro hmem
            rw [runKeys]
            have hrest : (p :: t).dropWhile (fun q => q.1 == p.1) =
                t.dropWhile (fun q => q.1 == p.1) :=
              List.dropWhile_cons_of_pos (by simp)
            rcases List.mem_cons.mp hmem with rfl | hmem2
            · exact List.mem_cons_self _ _
            · obtain ⟨y, hy, rfl⟩ := List.mem_map.mp hmem2
              have hsplit_t : t.takeWhile (fun q => q.1 == p.1) ++
                  t.dropWhile (fun q => q.1 == p.1) = t :=
                List.takeWhile_append_dropWhile (p := fun q => q.1 == p.1) (l := t)
              rw [← hsplit_t] at hy
              rcases List.mem_append.mp hy with hy1 | hy2
              · have h1 := List.mem_takeWhile_imp hy1
                have h2 : y.1 = p.1 := by simpa using h1
                rw [h2]
                exact List.mem_cons_self _ _
              · apply List.mem_cons_of_mem
                have hlen2 : ((p :: t).dropWhile (fun q => q.1 == p.1)).length ≤ n := by
                  rw [hrest]
                  have := (t.dropWhile_sublist (fun q => q.1 == p.1)).length_le
                  simp at hlen
                  omega
                have hsort2 : List.Sorted pairKeyLE
                    ((p :: t).dropWhile (fun q => q.1 == p.1)) :=
                  List.Pairwise.sublist ((p :: t).dropWhile_sublist _) hsort
                rw [ih _ hlen2 hsort2 y.1, hrest]
                exact List.mem_map_of_mem Prod.fst hy2

/-- On a key-sorted pair list, run-grouping equals: one group per run key,
each group the values of exactly the rows with that key. -/
theorem groupPairs_eq_filter (n : ℕ) :
    ∀ (s : List (ℤ × α)), s.length ≤ n → List.Sorted pairKeyLE s →
      groupPairs s =
        (runKeys s).map (fun key => (s.filter (fun q => q.1 == key)).map Prod.snd) := by
  induction n with
  | zero =>
      intro s hlen _
      have : s = [] := List.eq_nil_of_length_eq_zero (Nat.le_zero.mp hlen)
      subst this
      simp [groupPairs, runKeys]
  | succ n ih =>
      intro s hlen hsort
      cases s with
      | nil => simp [groupPairs, runKeys]
      | cons p t =>
          have hrun : (p :: t).takeWhile (fun q => q.1 == p.1) =
              p :: t.takeWhile (fun q => q.1 == p.1) :=
            List.takeWhile_cons_of_pos (by simp)
          have hrest : (p :: t).dropWhile (fun q => q.1 == p.1) =
              t.dropWhile (fun q => q.1 == p.1) :=
            List.dropWhile_cons_of_pos (by simp)
          have hsplit : (p :: t).takeWhile (fun q => q.1 == p.1) ++
              (p :: t).dropWhile (fun q => q.1 == p.1) = p :: t :=
            List.takeWhile_append_dropWhile (p := fun q => q.1 == p.1) (l := p :: t)
          have hlt : ∀ y ∈ (p :: t).dropWhile (fun q => q.1 == p.1), p.1 < y.1 :=
            sorted_dropWhile_lt p t hsort
          have hlen2 : ((p :: t).dropWhile (fun q => q.1 == p.1)).length ≤ n := by
            rw [hrest]
            have := (t.dropWhile_sublist (fun q => q.1 == p.1)).length_le
            simp at hlen
            omega
          have hsort2 : List.Sorted pairKeyLE ((p :: t).dropWhile (fun q => q.1 == p.1)) :=
            List.Pairwise.sublist ((p :: t).dropWhile_sublist _) hsort
          rw [groupPairs, runKeys, List.map_cons]
          congr 1
          · -- head group: the run is exactly the filter at the head key
            have hfil : (p :: t).filter (fun q => q.1 == p.1) =
                (p :: t).takeWhile (fun q => q.1 == p.1) := by
              conv_lhs => rw [← hsplit]
              rw [List.filter_append]
              have h1 : ((p :: t).takeWhile (fun q => q.1 == p.1)).filter
                  (fun q => q.1 == p.1) = (p :: t).takeWhile (fun q => q.1 == p.1) :=
                List.filter_eq_self.mpr (fun x hx => by
                  have h := List.mem_takeWhile_imp hx
                  simpa using h)
              have h2 : ((p :: t).dropWhile (fun q => q.1 == p.1)).filter
                  (fun q => q.1 == p.1) = [] := by
                apply List.filter_eq_nil_iff.mpr
                intro y hy
                have := hlt y hy
                simp
                omega
              rw [h1, h2, List.append_nil]
            rw [hfil]
          · -- tail groups: filtering at a later key ignores the head run
            rw [ih _ hlen2 hsort2]
            apply List.map_congr_left
            intro key hkey
            have hkey_gt : p.1 < key := by
              have hmem := runKeys_subset ((p :: t).dropWhile (fun q => q.1 == p.1)).length
                _ le_rfl key hkey
              obtain ⟨y, hy, rfl⟩ := List.mem_map.mp hmem
              exact hlt y hy
            congr 1
            conv_rhs => rw [← hsplit]
            rw [List.filter_append]
            have h1 : ((p :: t).takeWhile (fun q => q.1 == p.1)).filter
                (fun q => q.1 == key) = [] := by
              apply List.filter_eq_nil_iff.mpr
              intro y hy
              have := List.mem_takeWhile_imp hy
              have hy1 : y.1 = p.1 := by simpa using this
              simp [hy1]
              omega
            rw [h1, List.nil_append]

/-- Claim C5: for every non-empty list of (key, value) rows, `group_by`
returns (the values of) one group per distinct key, the groups ordered by
ascending key: there is a strictly increasing list `ks` holding exactly the
distinct keys of the input such that the result is, position by position,
the values of the rows whose key is the corresponding entry of `ks` (taken
from the sorted rows, and equal as a multiset to the same selection from the
original rows); the group sizes sum to the number of rows; and on keys
`[0,1,1,0,2]` with values `[1,2,3,4,5]` the result is `[[1,4],[2,3],[5]]`. -/
theorem group_by_grouping_spec (a : List (ℤ × ℤ)) (ha : a ≠ []) :
    ∃ ks : List ℤ,
      List.Chain' (· < ·) ks ∧
      (∀ key, key ∈ ks ↔ key ∈ a.map Prod.fst) ∧
      group_by a =
        ks.map (fun key => ((sortPairs a).filter (fun q => q.1 == key)).map Prod.snd) ∧
      (∀ key, List.Perm (((sortPairs a).filter (fun q => q.1 == key)).map Prod.snd)
        ((a.filter (fun q => q.1 == key)).map Prod.snd)) ∧
      ((group_by a).map List.length).sum = a.length ∧
      group_by [((0 : ℤ), (1 : ℤ)), (1, 2), (1, 3), (0, 4), (2, 5)] =
        [[1, 4], [2, 3], [5]] := by
  have hsort : List.Sorted pairKeyLE (sortPairs a) :=
    List.sorted_insertionSort pairKeyLE a
  have hperm : List.Perm (sortPairs a) a := List.perm_insertionSort pairKeyLE a
  have heq : group_by a = groupPairs (sortPairs a) := group_by_eq_groupPairs a ha
  refine ⟨runKeys (sortPairs a), ?_, ?_, ?_, ?_, ?_, by decide⟩
  · exact runKeys_chain (sortPairs a).length _ le_rfl hsort
  · intro key
    rw [runKeys_mem (sortPairs a).length _ le_rfl hsort key]
    exact (hperm.map Prod.fst).mem_iff
  · rw [heq]
    exact groupPairs_eq_filter (sortPairs a).length _ le_rfl hsort
  · intro key
    exact (hperm.filter (fun q => q.1 == key)).map Prod.snd
  · have h1 : ((group_by a).map List.length).sum = (group_by a).flatten.length :=
      (List.length_flatten (group_by a)).symm
    rw [h1, heq, groupPairs_flatten (sortPairs a).length _ le_rfl, List.length_map]
    exact hperm.length_eq

/-- Claim C5 witness: the spec instantiated at the example input, with the
non-emptiness hypothesis discharged concretely. -/
theorem group_by_grouping_spec_witness :
    ∃ ks : List ℤ,
      List.Chain' (· < ·) ks ∧
      (∀ key, key ∈ ks ↔
        key ∈ ([((0 : ℤ), (1 : ℤ)), (1, 2), (1, 3), (0, 4), (2, 5)]).map Prod.fst) ∧
      group_by [((0 : ℤ), (1 : ℤ)), (1, 2), (1, 3), (0, 4), (2, 5)] =
        ks.map (fun key =>
          ((sortPairs [((0 : ℤ), (1 : ℤ)), (1, 2), (1, 3), (0, 4), (2, 5)]).filter
            (fun q => q.1 == key)).map Prod.snd) ∧
      (∀ key, List.Perm
        (((sortPairs [((0 : ℤ), (1 : ℤ)), (1, 2), (1, 3), (0, 4), (2, 5)]).filter
          (fun q => q.1 == key)).map Prod.snd)
        ((([((0 : ℤ), (1 : ℤ)), (1, 2), (1, 3), (0, 4), (2, 5)]).filter
          (fun q => q.1 == key)).map Prod.snd)) ∧
      ((group_by [((0 : ℤ), (1 : ℤ)), (1, 2), (1, 3), (0, 4), (2, 5)]).map
        List.length).sum = ([((0 : ℤ), (1 : ℤ)), (1, 2), (1, 3), (0, 4), (2, 5)]).length ∧
      group_by [((0 : ℤ), (1 : ℤ)), (1, 2), (1, 3), (0, 4), (2, 5)] =
        [[1, 4], [2, 3], [5]] :=
  group_by_grouping_spec [((0 : ℤ), (1 : ℤ)), (1, 2), (1, 3), (0, 4), (2, 5)] (by simp)

/-! ### Claim C3: `distribute_subproblems` partitions the point indices -/

theorem bin_content_tuple_ok (pts : List (List ℚ)) (w : List ℚ)
    (bc : List (List ℤ)) (f : List ℕ) (hf : f ≠ []) :
    bin_content_tuple pts w bc f = Except.ok (mkSubproblem pts w bc f) := by
  cases f with
  | nil => exact absurd rfl hf
  | cons i₀ r => rfl

theorem flatten_map_singleton (l : List (List ℕ)) :
    (l.map (fun g => [g])).flatten = l := by
  induction l with
  | nil => rfl
  | cons g gs ih => simp [ih]

theorem flatten_flatten_map (f : List ℕ → List (List ℕ)) (l : List (List ℕ))
    (h : ∀ g ∈ l, (f g).flatten = g) :
    ((l.map f).flatten).flatten = l.flatten := by
  induction l with
  | nil => rfl
  | cons g gs ih =>
      simp only [List.map_cons, List.flatten_cons, List.flatten_append]
      rw [h g (List.mem_cons_self g gs), ih (fun x hx => h x (List.mem_cons_of_mem g hx))]

/-- Claim C3: whenever `distribute_subproblems` succeeds, the dispatched
subproblems partition the input point indices — the concatenation of their
index lists is a permutation of `0 … n-1`, so every point index appears in
exactly one subproblem — and every subproblem carries exactly the positions
and weights gathered at its indices; and on a non-empty point set it does
succeed (for the unbounded sentinel and for every bound `k ≥ 1`). -/
theorem distribute_subproblems_partition (cs : List ℚ) (cc bs : List ℤ)
    (pts : List (List ℚ)) (w : List ℚ) (k : ℤ) (hk : k = -1 ∨ 1 ≤ k) :
    (pts ≠ [] → ∃ subs, distribute_subproblems cs cc bs pts w k = Except.ok subs) ∧
    (∀ subs, distribute_subproblems cs cc bs pts w k = Except.ok subs →
      List.Perm ((subs.map SubproblemResult.nup_idxes).flatten) (List.range pts.length) ∧
      ∀ s ∈ subs, s.points = s.nup_idxes.map (fun i => pts.getD i []) ∧
        s.weights = s.nup_idxes.map (fun i => w.getD i 0)) := by
  by_cases hpts : pts = []
  · subst hpts
    have herr : ∃ msg, distribute_subproblems cs cc bs [] w k = Except.error msg := by
      rcases hk with rfl | hk1
      · exact ⟨indexErr, rfl⟩
      · have hext := extract_subproblems_error_of_empty [[]] k hk1 (by simp)
        have hd : distribute_subproblems cs cc bs [] w k =
            (extract_subproblems [[]] k).bind
              (fun subproblems =>
                subproblems.flatten.mapM (bin_content_tuple [] w [])) := rfl
        rw [hd, hext]
        exact ⟨numberSectionsErr, rfl⟩
    obtain ⟨msg, hmsg⟩ := herr
    constructor
    · intro h
      exact absurd rfl h
    · intro subs hsubs
      rw [hmsg] at hsubs
      cases hsubs
  · -- non-empty point set
    have hn : 1 ≤ pts.length := List.length_pos.mpr hpts
    -- the grouping of the augmented linear coordinates
    set bin_coords := compute_bin_coords cs bs cc pts with hbc
    set lin := compute_linearized_bin_coords (List.zipWith Int.fdiv cc bs) bin_coords
      with hlin
    set aug := lin.zip (List.range pts.length) with haug
    have hbclen : bin_coords.length = pts.length := by
      rw [hbc]
      simp [compute_bin_coords, clip_bin_coords, raw_bin_coords]
    have hlinlen : lin.length = pts.length := by
      rw [hlin]
      simp [compute_linearized_bin_coords, hbclen]
    have haugsnd : aug.map Prod.snd = List.range pts.length := by
      rw [haug]
      exact List.map_snd_zip _ _ (by simp [hlinlen])
    have haugne : aug ≠ [] := by
      intro h
      have : aug.length = 0 := by rw [h]; rfl
      rw [haug, List.length_zip, hlinlen, List.length_range] at this
      omega
    set groups := group_by aug with hgroups
    have hgflat : List.Perm groups.flatten (List.range pts.length) := by
      rw [hgroups, group_by_eq_groupPairs aug haugne,
        groupPairs_flatten (sortPairs aug).length _ le_rfl, ← haugsnd]
      exact (List.perm_insertionSort pairKeyLE aug).map Prod.snd
    have hgne : ∀ g ∈ groups, g ≠ [] := by
      rw [hgroups, group_by_eq_groupPairs aug haugne]
      exact groupPairs_ne_nil (sortPairs aug).length _ le_rfl
    -- the extraction step succeeds in both modes, with flattened subgroups
    -- that are non-empty and flatten to the grouped indices
    have hmain : ∃ flat : List (List ℕ),
        distribute_subproblems cs cc bs pts w k =
          flat.mapM (bin_content_tuple pts w bin_coords) ∧
        List.Perm flat.flatten (List.range pts.length) ∧
        (∀ f ∈ flat, f ≠ []) := by
      have hd : distribute_subproblems cs cc bs pts w k =
          (extract_subproblems groups k).bind
            (fun subproblems =>
              subproblems.flatten.mapM (bin_content_tuple pts w bin_coords)) := rfl
      rcases hk with rfl | hk1
      · refine ⟨groups, ?_, hgflat, hgne⟩
        rw [hd, extract_subproblems_unbounded groups]
        show ((groups.map (fun g => [g])).flatten).mapM
          (bin_content_tuple pts w bin_coords) = _
        rw [flatten_map_singleton]
      · refine ⟨(groups.map (ceilChunks k)).flatten, ?_, ?_, ?_⟩
        · rw [hd, extract_subproblems_ok groups k hk1 hgne]
          rfl
        · rw [flatten_flatten_map (ceilChunks k) groups
            (fun g hg => (ceilChunks_spec g k hk1 (hgne g hg)).2.1)]
          exact hgflat
        · intro f hf
          obtain ⟨chunks, hchunks, hfs⟩ := List.mem_flatten.mp hf
          obtain ⟨g, hg, rfl⟩ := List.mem_map.mp hchunks
          exact ((ceilChunks_spec g k hk1 (hgne g hg)).2.2 f hfs).1
    obtain ⟨flat, hdist, hperm, hfne⟩ := hmain
    have hmapM : flat.mapM (bin_content_tuple pts w bin_coords) =
        Except.ok (flat.map (mkSubproblem pts w bin_coords)) :=
      mapM_ok_of_forall _ _ flat
        (fun f hf => bin_content_tuple_ok pts w bin_coords f (hfne f hf))
    rw [hdist, hmapM]
    constructor
    · intro _
      exact ⟨_, rfl⟩
    · intro subs hsubs
      obtain rfl : flat.map (mkSubproblem pts w bin_coords) = subs := Except.ok.inj hsubs
      constructor
      · have hmapid : (flat.map (mkSubproblem pts w bin_coords)).map
            SubproblemResult.nup_idxes = flat := by
          rw [List.map_map]
          have h2 : ∀ f ∈ flat,
              (SubproblemResult.nup_idxes ∘ mkSubproblem pts w bin_coords) f = id f :=
            fun f _ => rfl
          rw [List.map_congr_left h2, List.map_id]
        rw [hmapid]
        exact hperm
      · intro s hs
        obtain ⟨f, hf, rfl⟩ := List.mem_map.mp hs
        exact ⟨rfl, rfl⟩

/-- Claim C3 witness: a concrete 1-D instance (two points in separate bins,
bound `k = 1`), with the bound hypothesis discharged concretely. -/
theorem distribute_subproblems_partition_witness :
    (([[0], [3/2]] : List (List ℚ)) ≠ [] →
      ∃ subs, distribute_subproblems [1] [2] [1] [[0], [3/2]] [2, 3] 1 =
        Except.ok subs) ∧
    (∀ subs, distribute_subproblems [1] [2] [1] [[0], [3/2]] [2, 3] 1 =
        Except.ok subs →
      List.Perm ((subs.map SubproblemResult.nup_idxes).flatten)
        (List.range ([[0], [3/2]] : List (List ℚ)).length) ∧
      ∀ s ∈ subs, s.points = s.nup_idxes.map
          (fun i => ([[0], [3/2]] : List (List ℚ)).getD i []) ∧
        s.weights = s.nup_idxes.map (fun i => ([2, 3] : List ℚ).getD i 0)) :=
  distribute_subproblems_partition [1] [2] [1] [[0], [3/2]] [2, 3] 1
    (Or.inr (by decide))
